/-
Verification of the altcoin-predictor forecasting script (src/app.py).

The script is a linear pipeline: fetch hourly prices for a user-entered
symbol (primary source, with a fallback that resolves the symbol through a
memoized coin-listing map), fit a Prophet model, extend it by 24 hourly
steps, and render one table per fixed horizon offset with an Excel export.

Shallow embedding conventions:
* timestamps are naturals counted in seconds (one hour = 3600);
* prices are rationals; Python `round(x, d)` is modelled exactly on the
  rational value, with Python's round-half-to-even tie rule;
* the Prophet library call `make_future_dataframe(periods=24, freq='H')`
  is modelled from its documented semantics (the library is not part of
  this repository): the historical dates followed by 24 hourly steps past
  the last historical date;
* the fallible per-horizon `iloc[hour - 1]` indexing is modelled with
  `List.getElem?`, the bare `except` branch with the `none` case;
* the top-level script order (cached coin-listing load before the predict
  button and outside the try/except) is modelled as an event trace.
-/
import Mathlib

namespace AltcoinApp

/-- Python `round` applied to an exact rational: round to the nearest
integer, ties going to the even integer (round-half-to-even). -/
def roundHalfEven (x : ℚ) : ℤ :=
  let f := ⌊x⌋
  let r := x - (f : ℚ)
  if r < 1 / 2 then f
  else if 1 / 2 < r then f + 1
  else if f % 2 = 0 then f else f + 1

/-- Python `round(x, d)` on an exact rational value. -/
def pyRound (d : ℕ) (x : ℚ) : ℚ :=
  (roundHalfEven (x * 10 ^ d) : ℚ) / 10 ^ d

/-- A pandas timestamp: naive wall-clock seconds plus an optional
timezone offset.  `tz_localize(None)` clears the offset and keeps the
wall-clock value. -/
structure Timestamp where
  naive : ℕ
  tz : Option ℤ
deriving DecidableEq

/-- One raw candle returned by the primary source (`yf.download`):
a timestamped row with several price columns, of which the pipeline
keeps only `Datetime` and `Close`. -/
structure Candle where
  dt : Timestamp
  openPrice : ℚ
  high : ℚ
  low : ℚ
  close : ℚ
deriving DecidableEq

/-- One row of the Prophet forecast frame (`ds`, `yhat`,
`yhat_lower`, `yhat_upper`). -/
structure FRow where
  ds : ℕ
  yhat : ℚ
  yhat_lower : ℚ
  yhat_upper : ℚ
deriving DecidableEq

/-- One fully-built horizon record, mirroring the columns of the
per-horizon `pd.DataFrame` built in the loop body (lines 79-89 of
src/app.py). -/
structure HorizonRow where
  hour : ℕ
  ds : ℕ
  current_price : ℚ
  predicted : ℚ
  lower : ℚ
  upper : ℚ
  change : ℚ
  pct_change : ℚ
  trend : String
deriving DecidableEq

/-- The loop-body computation of src/app.py lines 71-89: round the
forecast fields to 5 decimals, the percent change to 2 decimals, and
attach the trend label by the strict `pct_change > 0` test. -/
def mkHorizonRow (hour : ℕ) (row : FRow) (current_price : ℚ) : HorizonRow :=
  let predicted := pyRound 5 row.yhat
  let lower := pyRound 5 row.yhat_lower
  let upper := pyRound 5 row.yhat_upper
  let change := pyRound 5 (predicted - current_price)
  let pct_change := pyRound 2 (change / current_price * 100)
  let trend := if 0 < pct_change then "🔺 Uptrend" else "🔻 Downtrend"
  ⟨hour, row.ds, current_price, predicted, lower, upper, change, pct_change, trend⟩

/-- The column labels of every displayed per-horizon table, in order. -/
def tableHeaders : List String :=
  ["Hour Ahead", "Predicted Time", "Current Price (USD)",
   "Predicted Price (USD)", "Lower Prediction (Min Expected Price)",
   "Upper Prediction (Max Expected Price)", "Change (USD)", "Change (%)",
   "Trend"]

/-- A displayed table: header labels plus data rows (each per-horizon
table holds exactly one data row). -/
structure DisplayTable where
  header : List String
  rows : List HorizonRow
deriving DecidableEq

/-- The single-row `pd.DataFrame` built for one horizon. -/
def mkTable (hour : ℕ) (row : FRow) (current_price : ℚ) : DisplayTable :=
  ⟨tableHeaders, [mkHorizonRow hour row current_price]⟩

/-- `time_slots = [1] + list(range(2, 25, 2))` (src/app.py line 23). -/
def time_slots : List ℕ := [1] ++ List.range' 2 12 2

/-- What one iteration of the horizon loop produces: either a rendered
(and collected) table, or the warning for an unavailable horizon. -/
inductive HorizonOutcome where
  | table : DisplayTable → HorizonOutcome
  | warning : ℕ → HorizonOutcome
deriving DecidableEq

/-- One iteration of the horizon loop (src/app.py lines 70-96):
`future_data.iloc[hour - 1]` either yields a row, giving a table, or
raises, in which case the bare `except` surfaces a warning for that
horizon. -/
def horizonStep (future : List FRow) (current_price : ℚ) (hour : ℕ) :
    HorizonOutcome :=
  match future[hour - 1]? with
  | some row => .table (mkTable hour row current_price)
  | none => .warning hour

/-- The whole horizon loop: one outcome per element of `time_slots`, in
order. -/
def processHorizons (future : List FRow) (current_price : ℚ) :
    List HorizonOutcome :=
  time_slots.map (horizonStep future current_price)

/-- Projection selecting the successful tables of an outcome list. -/
def outTable : HorizonOutcome → Option DisplayTable
  | .table t => some t
  | .warning _ => none

/-- Projection selecting the warned horizons of an outcome list. -/
def outWarning : HorizonOutcome → Option ℕ
  | .table _ => none
  | .warning h => some h

/-- The `all_tables` accumulator of the loop: the successful tables, in
loop order. -/
def all_tables (future : List FRow) (current_price : ℚ) : List DisplayTable :=
  (processHorizons future current_price).filterMap outTable

/-- The horizons for which the loop surfaced a warning, in loop order. -/
def horizonWarnings (future : List FRow) (current_price : ℚ) : List ℕ :=
  (processHorizons future current_price).filterMap outWarning

/-- `pd.concat(all_tables)`: the data rows of all tables, concatenated. -/
def concatTables (ts : List DisplayTable) : List HorizonRow :=
  (ts.map DisplayTable.rows).flatten

/-- The exported spreadsheet produced by `convert_excel` plus the
download-button metadata (src/app.py lines 99-115). -/
structure ExportFile where
  fileName : String
  sheetName : String
  header : List String
  rows : List HorizonRow
  mimeType : String
deriving DecidableEq

/-- Builds the export: concatenated rows, one sheet named `Forecasts`,
filename `SYMBOL_forecast.xlsx`, spreadsheet MIME type. -/
def convert_excel (symbol : String) (ts : List DisplayTable) : ExportFile :=
  ⟨symbol ++ "_forecast.xlsx", "Forecasts", tableHeaders, concatTables ts,
   "application/vnd.openxmlformats-officedocument.spreadsheetml.sheet"⟩

/-- The hour offsets of the displayed (and exported) data rows, in
display order. -/
def tableHours (future : List FRow) (current_price : ℚ) : List ℕ :=
  (concatTables (all_tables future current_price)).map HorizonRow.hour

/-- The last historical timestamp (`df['ds'].iloc[-1]`), with a default
for the empty series. -/
def lastDs (histDs : List ℕ) : ℕ := histDs.getLast?.getD 0

/-- Modelled from the documented semantics of Prophet's
`make_future_dataframe(periods, freq='H')` (library code, not part of
this repository): the history dates followed by `periods` further
hourly steps after the last history date. -/
def make_future_dataframe (histDs : List ℕ) (periods : ℕ) : List ℕ :=
  histDs ++ (List.range periods).map (fun i => lastDs histDs + 3600 * (i + 1))

/-- The forecast frame over the extended date range; the numeric model
output (`yhat`, `yhat_lower`, `yhat_upper`) is an abstract function of
the timestamp. -/
def prophetForecast (model : ℕ → ℚ × ℚ × ℚ) (histDs : List ℕ) : List FRow :=
  (make_future_dataframe histDs 24).map
    (fun t => ⟨t, (model t).1, (model t).2.1, (model t).2.2⟩)

/-- `future_data = forecast[forecast['ds'] > now]` with
`now = df['ds'].iloc[-1]` (src/app.py lines 61-62). -/
def futureData (model : ℕ → ℚ × ℚ × ℚ) (histDs : List ℕ) : List FRow :=
  (prophetForecast model histDs).filter (fun r => decide (lastDs histDs < r.ds))

/-- One entry of the coin-listing response: a ticker symbol and the
backend coin identifier. -/
structure CoinEntry where
  symbol : String
  id : String
deriving DecidableEq

/-- Python `dict.get`: the value stored for a key, `none` when absent.
The dict is modelled as an insertion-ordered association list whose
keys are unique, looked up by first match. -/
def dictGet (d : List (String × String)) (k : String) : Option String :=
  (d.find? (fun p => p.1 == k)).map (fun p => p.2)

/-- Python dict assignment `d[k] = v`: overwrite in place when the key
exists, append otherwise. -/
def insertDict (d : List (String × String)) (k v : String) :
    List (String × String) :=
  if d.any (fun p => p.1 == k) then
    d.map (fun p => if p.1 == k then (k, v) else p)
  else
    d ++ [(k, v)]

/-- The dict comprehension of `load_coin_mapping` (src/app.py line 20):
uppercased symbol mapped to identifier, later entries overwriting
earlier ones. -/
def load_coin_mapping (data : List CoinEntry) : List (String × String) :=
  data.foldl (fun d c => insertDict d c.symbol.toUpper c.id) []

/-- `tz_localize(None)`: drop the timezone, keep the wall clock. -/
def stripTz (t : Timestamp) : Timestamp := ⟨t.naive, none⟩

/-- The primary-path normalization (src/app.py lines 31-34): strip the
timezone and keep only the timestamp and close columns, renamed
`ds`, `y`. -/
def normalizePrimary (rows : List Candle) : List (Timestamp × ℚ) :=
  rows.map (fun c => (stripTz c.dt, c.close))

/-- The fallback-path parse (src/app.py lines 49-51): the `prices` array
of millisecond-timestamped prices becomes the `ds`, `y` frame (modelled
at second resolution). -/
def secondaryParse (prices : List (ℕ × ℚ)) : List (Timestamp × ℚ) :=
  prices.map (fun p => (⟨p.1 / 1000, none⟩, p.2))

/-- Result of the data-fetch stage: either the pipeline stops because
the fallback could not resolve the coin, or a series was fetched; the
Boolean records whether the secondary source was contacted. -/
inductive FetchOutcome where
  | stopCoinNotFound : FetchOutcome
  | fetched : List (Timestamp × ℚ) → Bool → FetchOutcome
deriving DecidableEq

/-- The fetch stage (src/app.py lines 28-52): use the primary result if
non-empty; otherwise resolve the symbol in the coin map, stopping with
the coin-not-found message when absent, and only then contact the
secondary source. -/
def fetchStage (primary : List Candle) (coin_map : List (String × String))
    (symbol : String) (secondaryPrices : List (ℕ × ℚ)) : FetchOutcome :=
  if primary.isEmpty then
    match dictGet coin_map symbol with
    | none => .stopCoinNotFound
    | some _ => .fetched (secondaryParse secondaryPrices) true
  else
    .fetched (normalizePrimary primary) false

/-- Whether the fetch stage contacted the secondary market-data
source. -/
def secondaryContacted : FetchOutcome → Bool
  | .stopCoinNotFound => false
  | .fetched _ b => b

/-- Overall outcome of one triggered pipeline run. -/
inductive PipelineResult where
  | coinNotFound : PipelineResult
  | pipelineError : PipelineResult
  | completed : List DisplayTable → Option ExportFile → PipelineResult
deriving DecidableEq

/-- The full triggered pipeline (src/app.py lines 26-115): fetch,
forecast, build the horizon tables, and offer the export only when at
least one table was built.  An empty fetched series makes the
`iloc[-1]` accesses raise into the catch-all handler. -/
def runPipeline (model : ℕ → ℚ × ℚ × ℚ) (primary : List Candle)
    (coin_map : List (String × String)) (symbol : String)
    (secondaryPrices : List (ℕ × ℚ)) : PipelineResult :=
  match fetchStage primary coin_map symbol secondaryPrices with
  | .stopCoinNotFound => .coinNotFound
  | .fetched df _ =>
    match df.getLast? with
    | none => .pipelineError
    | some lastRow =>
      let histDs := df.map (fun p => p.1.naive)
      let current_price := pyRound 5 lastRow.2
      let future_data := futureData model histDs
      let tables := all_tables future_data current_price
      if tables.isEmpty then .completed tables none
      else .completed tables (some (convert_excel symbol tables))

/-- The horizon tables a pipeline outcome displayed. -/
def tablesOf : PipelineResult → List DisplayTable
  | .completed ts _ => ts
  | _ => []

/-- The export control a pipeline outcome offered. -/
def exportOf : PipelineResult → Option ExportFile
  | .completed _ e => e
  | _ => none

/-- Observable top-level events of one script run. -/
inductive Event where
  | loadMappingCall : Event
  | listingRequest : Event
  | predictPipeline : Event
deriving DecidableEq

/-- The events whose exceptions the pipeline try/except (src/app.py
lines 26 and 117) would catch: only the triggered pipeline body. -/
def guardedEvents : List Event := [Event.predictPipeline]

/-- The top-level script order (src/app.py lines 13-26): the
`load_coin_mapping()` call runs on every page run before the predict
button is checked; its `st.cache_data` wrapper issues the coin-listing
network request only when the cache is cold; the guarded pipeline runs
only when the button was clicked. -/
def pageRun (cacheWarm clicked : Bool) : List Event :=
  [Event.loadMappingCall]
    ++ (if cacheWarm then [] else [Event.listingRequest])
    ++ (if clicked then [Event.predictPipeline] else [])

/-- Dividing before scaling by 100 (as the code does) agrees with the
specification's `100 * change / current_price`. -/
lemma div_mul_hundred (change current_price : ℚ) :
    change / current_price * 100 = 100 * change / current_price := by
  ring

/-- C1: for every HorizonRow built from a forecast row and a current
price, the absolute change is `round(predicted - current, 5)` (with
`predicted` itself already rounded to 5 decimals), the percent change is
`round(100 * change / current, 2)` computed from the rounded change, the
current price is carried unchanged, and the row is classified as an
uptrend exactly when the percent change is strictly positive (zero
change is a downtrend). -/
theorem horizon_row_fields (hour : ℕ) (row : FRow) (cp : ℚ) :
    (mkHorizonRow hour row cp).current_price = cp ∧
    (mkHorizonRow hour row cp).predicted = pyRound 5 row.yhat ∧
    (mkHorizonRow hour row cp).change
      = pyRound 5 ((mkHorizonRow hour row cp).predicted - cp) ∧
    (mkHorizonRow hour row cp).pct_change
      = pyRound 2 (100 * (mkHorizonRow hour row cp).change / cp) ∧
    ((mkHorizonRow hour row cp).trend = "🔺 Uptrend"
      ↔ 0 < (mkHorizonRow hour row cp).pct_change) := by
  refine ⟨rfl, rfl, rfl, ?_, ?_⟩
  · show pyRound 2 (pyRound 5 (pyRound 5 row.yhat - cp) / cp * 100)
        = pyRound 2 (100 * pyRound 5 (pyRound 5 row.yhat - cp) / cp)
    rw [div_mul_hundred]
  · simp only [mkHorizonRow]
    split_ifs with h
    · simp [h]
    · simp [h]

/-- C6 counterexample: a concrete HorizonRow whose trend label is
neither of the two strings "Uptrend" and "Downtrend" named by the
claim (the code attaches emoji-prefixed labels). -/
theorem trend_label_counterexample :
    ¬ ((mkHorizonRow 1 ⟨3600, 105, 100, 110⟩ 100).trend = "Uptrend" ∨
       (mkHorizonRow 1 ⟨3600, 105, 100, 110⟩ 100).trend = "Downtrend") := by
  have h : (mkHorizonRow 1 ⟨3600, 105, 100, 110⟩ 100).trend = "🔺 Uptrend" := by
    norm_num [mkHorizonRow, pyRound, roundHalfEven]
  rw [h]
  decide

/-- C6 (amended): the trend label is exactly one of the two fixed
strings "🔺 Uptrend" and "🔻 Downtrend", the former exactly when the
percent change is strictly positive. -/
theorem trend_label_two_strings (hour : ℕ) (row : FRow) (cp : ℚ) :
    ((mkHorizonRow hour row cp).trend = "🔺 Uptrend" ∨
     (mkHorizonRow hour row cp).trend = "🔻 Downtrend") ∧
    ((mkHorizonRow hour row cp).trend = "🔺 Uptrend"
      ↔ 0 < (mkHorizonRow hour row cp).pct_change) := by
  constructor
  · simp only [mkHorizonRow]
    split_ifs <;> simp
  · simp only [mkHorizonRow]
    split_ifs with h
    · simp [h]
    · simp [h]

/-- C3: the processed horizon set is exactly 1, 2, 4, ..., 24, iterated
in strictly ascending order, and horizon `h` reads the future row at
zero-based offset `h - 1`. -/
theorem time_slots_offsets (future : List FRow) (cp : ℚ) :
    time_slots = [1, 2, 4, 6, 8, 10, 12, 14, 16, 18, 20, 22, 24] ∧
    time_slots.Pairwise (· < ·) ∧
    processHorizons future cp =
      [1, 2, 4, 6, 8, 10, 12, 14, 16, 18, 20, 22, 24].map (fun h =>
        match future[h - 1]? with
        | some row => HorizonOutcome.table (mkTable h row cp)
        | none => HorizonOutcome.warning h) := by
  have ht : time_slots = [1, 2, 4, 6, 8, 10, 12, 14, 16, 18, 20, 22, 24] := by
    decide
  refine ⟨ht, by decide, ?_⟩
  rw [processHorizons, ht]
  rfl

/-- Every element of a strictly increasing list is at most its last
element. -/
lemma le_lastDs (l : List ℕ) (hm : l.Chain' (· < ·)) :
    ∀ x ∈ l, x ≤ lastDs l := by
  induction l with
  | nil => simp
  | cons a t ih =>
    cases t with
    | nil =>
      intro x hx
      simp only [List.mem_singleton] at hx
      subst hx
      simp [lastDs]
    | cons b t2 =>
      rw [List.chain'_cons] at hm
      intro x hx
      have hlast : lastDs (a :: b :: t2) = lastDs (b :: t2) := by
        simp [lastDs, List.getLast?_cons_cons]
      rw [hlast]
      rcases List.mem_cons.mp hx with hxa | hxt
      · subst hxa
        exact le_of_lt (lt_of_lt_of_le hm.1 (ih hm.2 b (List.mem_cons_self b t2)))
      · exact ih hm.2 x hxt

/-- The filtered future frame is exactly the 24 hourly steps past the
last historical timestamp, carrying the abstract model output. -/
lemma futureData_eq (model : ℕ → ℚ × ℚ × ℚ) (histDs : List ℕ)
    (hm : histDs.Chain' (· < ·)) :
    futureData model histDs =
      (List.range 24).map (fun i =>
        ⟨lastDs histDs + 3600 * (i + 1),
         (model (lastDs histDs + 3600 * (i + 1))).1,
         (model (lastDs histDs + 3600 * (i + 1))).2.1,
         (model (lastDs histDs + 3600 * (i + 1))).2.2⟩) := by
  unfold futureData prophetForecast make_future_dataframe
  rw [List.map_append, List.filter_append]
  have h1 : (histDs.map
      (fun t => (⟨t, (model t).1, (model t).2.1, (model t).2.2⟩ : FRow))).filter
        (fun r => decide (lastDs histDs < r.ds)) = [] := by
    rw [List.filter_eq_nil_iff]
    intro r hr
    simp only [List.mem_map] at hr
    obtain ⟨t, ht, rfl⟩ := hr
    simpa using not_lt.mpr (le_lastDs histDs hm t ht)
  have h2 : (((List.range 24).map
        (fun i => lastDs histDs + 3600 * (i + 1))).map
      (fun t => (⟨t, (model t).1, (model t).2.1, (model t).2.2⟩ : FRow))).filter
        (fun r => decide (lastDs histDs < r.ds)) =
      ((List.range 24).map (fun i => lastDs histDs + 3600 * (i + 1))).map
        (fun t => (⟨t, (model t).1, (model t).2.1, (model t).2.2⟩ : FRow)) := by
    rw [List.filter_eq_self]
    intro r hr
    simp only [List.map_map, List.mem_map] at hr
    obtain ⟨i, _, rfl⟩ := hr
    simp
  rw [h1, h2, List.nil_append, List.map_map]
  rfl

/-- C2: on a valid price series (at least two points, strictly
increasing timestamps), the forecast stage filtered to timestamps
strictly after the last historical one yields exactly 24 rows, all
strictly later than the last historical timestamp, strictly increasing
and spaced exactly one hour (3600 s) apart. -/
theorem forecast_24_hourly (model : ℕ → ℚ × ℚ × ℚ) (histDs : List ℕ)
    (_hlen : 2 ≤ histDs.length) (hm : histDs.Chain' (· < ·)) :
    (futureData model histDs).length = 24 ∧
    (futureData model histDs).map FRow.ds
      = (List.range 24).map (fun i => lastDs histDs + 3600 * (i + 1)) ∧
    (∀ r ∈ futureData model histDs, lastDs histDs < r.ds) ∧
    (futureData model histDs).Chain' (fun a b => b.ds = a.ds + 3600) := by
  rw [futureData_eq model histDs hm]
  refine ⟨by simp, by simp [List.map_map], ?_, ?_⟩
  · intro r hr
    simp only [List.mem_map] at hr
    obtain ⟨i, _, rfl⟩ := hr
    simp
  · rw [List.chain'_map]
    have h24 : (24 : ℕ) = Nat.succ 23 := rfl
    rw [h24, List.chain'_range_succ]
    intro m _
    simp only []
    omega

/-- The hour offset stored in a built row is the loop's hour. -/
lemma mkHorizonRow_hour (hour : ℕ) (row : FRow) (cp : ℚ) :
    (mkHorizonRow hour row cp).hour = hour := rfl

/-- Concatenation of a table list, one step. -/
lemma concatTables_cons (t : DisplayTable) (ts : List DisplayTable) :
    concatTables (t :: ts) = t.rows ++ concatTables ts := by
  simp [concatTables]

/-- The hour offsets of the data rows produced by the loop over an
arbitrary slot list: exactly the slots within range, in slot order. -/
lemma hours_of_slots (future : List FRow) (cp : ℚ) (slots : List ℕ)
    (hpos : ∀ s ∈ slots, 1 ≤ s) :
    (concatTables ((slots.map (horizonStep future cp)).filterMap outTable)).map
        HorizonRow.hour
      = slots.filter (fun s => decide (s ≤ future.length)) := by
  induction slots with
  | nil => rfl
  | cons s t ih =>
    have hs : 1 ≤ s := hpos s (List.mem_cons_self s t)
    have ht : ∀ x ∈ t, 1 ≤ x := fun x hx => hpos x (List.mem_cons_of_mem s hx)
    cases hrow : future[s - 1]? with
    | some row =>
      have hlt : s - 1 < future.length := by
        by_contra hc
        rw [List.getElem?_eq_none (by omega)] at hrow
        exact Option.noConfusion hrow
      have hle : s ≤ future.length := by omega
      have hstep : horizonStep future cp s
          = HorizonOutcome.table (mkTable s row cp) := by
        simp [horizonStep, hrow]
      have hd : decide (s ≤ future.length) = true := by simp [hle]
      simp only [List.map_cons, hstep, List.filterMap_cons, outTable,
        concatTables_cons, List.map_append, mkTable, List.map_nil,
        mkHorizonRow_hour, List.filter_cons, hd, if_true, List.singleton_append]
      exact congrArg (List.cons s) (ih ht)
    | none =>
      have hge : future.length ≤ s - 1 := by
        by_contra hc
        rw [List.getElem?_eq_getElem (by omega)] at hrow
        exact Option.noConfusion hrow
      have hnle : ¬ s ≤ future.length := by omega
      have hstep : horizonStep future cp s = HorizonOutcome.warning s := by
        simp [horizonStep, hrow]
      have hd : decide (s ≤ future.length) = false := by simp [hnle]
      simp only [List.map_cons, hstep, List.filterMap_cons, outTable,
        List.filter_cons, hd, Bool.false_eq_true, if_false]
      exact ih ht

/-- The horizons warned by the loop over an arbitrary slot list:
exactly the out-of-range slots, in slot order. -/
lemma warnings_of_slots (future : List FRow) (cp : ℚ) (slots : List ℕ)
    (hpos : ∀ s ∈ slots, 1 ≤ s) :
    (slots.map (horizonStep future cp)).filterMap outWarning
      = slots.filter (fun s => decide (future.length < s)) := by
  induction slots with
  | nil => rfl
  | cons s t ih =>
    have hs : 1 ≤ s := hpos s (List.mem_cons_self s t)
    have ht : ∀ x ∈ t, 1 ≤ x := fun x hx => hpos x (List.mem_cons_of_mem s hx)
    cases hrow : future[s - 1]? with
    | some row =>
      have hlt : s - 1 < future.length := by
        by_contra hc
        rw [List.getElem?_eq_none (by omega)] at hrow
        exact Option.noConfusion hrow
      have hno : ¬ future.length < s := by omega
      have hstep : horizonStep future cp s
          = HorizonOutcome.table (mkTable s row cp) := by
        simp [horizonStep, hrow]
      have hd : decide (future.length < s) = false := by simp [hno]
      simp only [List.map_cons, hstep, List.filterMap_cons, outWarning,
        List.filter_cons, hd, Bool.false_eq_true, if_false]
      exact ih ht
    | none =>
      have hge : future.length ≤ s - 1 := by
        by_contra hc
        rw [List.getElem?_eq_getElem (by omega)] at hrow
        exact Option.noConfusion hrow
      have hyes : future.length < s := by omega
      have hstep : horizonStep future cp s = HorizonOutcome.warning s := by
        simp [horizonStep, hrow]
      have hd : decide (future.length < s) = true := by simp [hyes]
      simp only [List.map_cons, hstep, List.filterMap_cons, outWarning,
        List.filter_cons, hd, if_true]
      exact congrArg (List.cons s) (ih ht)

/-- Every slot of `time_slots` is at least 1. -/
lemma time_slots_pos : ∀ s ∈ time_slots, 1 ≤ s := by decide

/-- C4: with a future sequence of n < 24 rows, the horizons of the
fixed set that are at most n all yield an output row, in ascending
order; all larger horizons are skipped, each with its own warning; and
every horizon of the fixed set still produces an outcome (no abort). -/
theorem horizon_partial_failure (future : List FRow) (cp : ℚ)
    (_hshort : future.length < 24) :
    tableHours future cp
        = time_slots.filter (fun s => decide (s ≤ future.length)) ∧
    horizonWarnings future cp
        = time_slots.filter (fun s => decide (future.length < s)) ∧
    (tableHours future cp).Pairwise (· < ·) ∧
    (processHorizons future cp).length = time_slots.length := by
  have h1 := hours_of_slots future cp time_slots time_slots_pos
  have h2 := warnings_of_slots future cp time_slots time_slots_pos
  have h3 : tableHours future cp
      = time_slots.filter (fun s => decide (s ≤ future.length)) := h1
  refine ⟨h3, h2, ?_, List.length_map _ _⟩
  rw [h3]
  exact List.Pairwise.filter _ (by decide : time_slots.Pairwise (· < ·))

/-- C5: when the primary source returns an empty result and the symbol
is absent from the coin map, the pipeline halts with the coin-not-found
outcome, displays zero horizon tables and offers no export control. -/
theorem coin_not_found_halts (model : ℕ → ℚ × ℚ × ℚ)
    (coin_map : List (String × String)) (symbol : String)
    (sp : List (ℕ × ℚ)) (habs : dictGet coin_map symbol = none) :
    runPipeline model [] coin_map symbol sp = PipelineResult.coinNotFound ∧
    tablesOf (runPipeline model [] coin_map symbol sp) = [] ∧
    exportOf (runPipeline model [] coin_map symbol sp) = none := by
  have h : fetchStage [] coin_map symbol sp = FetchOutcome.stopCoinNotFound := by
    simp [fetchStage, habs]
  refine ⟨?_, ?_, ?_⟩ <;>
    · unfold runPipeline
      rw [h]
      try rfl

/-- C7: whenever the primary source returns a non-empty result, the
fetch stage returns exactly the normalized primary series (timezone
stripped, only timestamp and close kept) without contacting the
secondary source; conversely the secondary source is contacted only
when the primary result is empty. -/
theorem primary_nonempty_skips_fallback (primary : List Candle)
    (coin_map : List (String × String)) (symbol : String)
    (sp : List (ℕ × ℚ)) (hne : primary ≠ []) :
    fetchStage primary coin_map symbol sp
        = FetchOutcome.fetched (normalizePrimary primary) false ∧
    normalizePrimary primary
        = primary.map (fun c => (⟨c.dt.naive, none⟩, c.close)) ∧
    secondaryContacted (fetchStage primary coin_map symbol sp) = false ∧
    (∀ p cm s sp2, secondaryContacted (fetchStage p cm s sp2) = true →
      p = ([] : List Candle)) := by
  have hne' : primary.isEmpty = false := by
    cases primary with
    | nil => exact absurd rfl hne
    | cons c t => rfl
  refine ⟨?_, ?_, ?_, ?_⟩
  · simp [fetchStage, hne']
  · simp [normalizePrimary, stripTz]
  · simp [fetchStage, hne', secondaryContacted]
  · intro p cm s sp2 hc
    cases hp : p.isEmpty with
    | true => exact List.isEmpty_iff.mp hp
    | false =>
      rw [fetchStage, if_neg (by simp [hp])] at hc
      exact absurd hc (by simp [secondaryContacted])

/-- Every collected table has the displayed headers and exactly one
data row. -/
lemma mem_all_tables_shape (future : List FRow) (cp : ℚ) :
    ∀ t ∈ all_tables future cp,
      t.header = tableHeaders ∧ t.rows.length = 1 := by
  intro t ht
  simp only [all_tables, List.mem_filterMap] at ht
  obtain ⟨o, ho, hot⟩ := ht
  simp only [processHorizons, List.mem_map] at ho
  obtain ⟨hour, _, rfl⟩ := ho
  cases hrow : future[hour - 1]? with
  | some row =>
    simp only [horizonStep, hrow, outTable, Option.some_inj] at hot
    subst hot
    exact ⟨rfl, rfl⟩
  | none =>
    simp [horizonStep, hrow, outTable] at hot

/-- Concatenating single-row tables gives one data row per table. -/
lemma concatTables_length (ts : List DisplayTable)
    (h : ∀ t ∈ ts, t.rows.length = 1) :
    (concatTables ts).length = ts.length := by
  induction ts with
  | nil => rfl
  | cons t rest ih =>
    rw [concatTables_cons, List.length_append,
      h t (List.mem_cons_self t rest),
      ih (fun x hx => h x (List.mem_cons_of_mem t hx)), List.length_cons]
    omega

/-- C8: the exported spreadsheet holds exactly one data row per
successfully built horizon row, concatenated in ascending horizon
order, with header labels equal to the displayed tables' headers, in a
single sheet named Forecasts under filename SYMBOL_forecast.xlsx with
the spreadsheet MIME type; and a pipeline run offers the export control
exactly when at least one table was built. -/
theorem export_roundtrip (future : List FRow) (cp : ℚ) (symbol : String) :
    (convert_excel symbol (all_tables future cp)).rows.length
        = (all_tables future cp).length ∧
    (convert_excel symbol (all_tables future cp)).header = tableHeaders ∧
    (∀ t ∈ all_tables future cp, t.header = tableHeaders) ∧
    (convert_excel symbol (all_tables future cp)).sheetName = "Forecasts" ∧
    (convert_excel symbol (all_tables future cp)).fileName
        = symbol ++ "_forecast.xlsx" ∧
    (convert_excel symbol (all_tables future cp)).mimeType
        = "application/vnd.openxmlformats-officedocument.spreadsheetml.sheet" ∧
    (convert_excel symbol (all_tables future cp)).rows.map HorizonRow.hour
        = time_slots.filter (fun s => decide (s ≤ future.length)) ∧
    (∀ m p cm s sp, (exportOf (runPipeline m p cm s sp)).isSome = true ↔
        tablesOf (runPipeline m p cm s sp) ≠ []) := by
  refine ⟨?_, rfl, fun t ht => (mem_all_tables_shape future cp t ht).1, rfl, rfl,
    rfl, ?_, ?_⟩
  · exact concatTables_length _
      (fun t ht => (mem_all_tables_shape future cp t ht).2)
  · exact hours_of_slots future cp time_slots time_slots_pos
  · intro m p cm s sp
    unfold runPipeline
    cases hf : fetchStage p cm s sp with
    | stopCoinNotFound => simp [exportOf, tablesOf]
    | fetched df b =>
      dsimp only
      cases hdf : df.getLast? with
      | none =>
        simp [exportOf, tablesOf]
      | some lastRow =>
        by_cases he : (all_tables (futureData m (df.map (fun q => q.1.naive)))
            (pyRound 5 lastRow.2)) = []
        · simp [exportOf, tablesOf, he]
        · simp [exportOf, tablesOf, he, List.isEmpty_iff]

/-- Looking up the key just written by an in-place dict update finds
the new value. -/
lemma find_map_update_self (d : List (String × String)) (k v : String)
    (hmem : d.any (fun p => p.1 == k) = true) :
    (d.map (fun p => if p.1 == k then (k, v) else p)).find?
        (fun p => p.1 == k) = some (k, v) := by
  induction d with
  | nil => simp at hmem
  | cons p t ih =>
    cases hpk : (p.1 == k) with
    | true =>
      simp only [List.map_cons, hpk, if_true, List.find?_cons]
      simp
    | false =>
      have hmem2 : t.any (fun p => p.1 == k) = true := by
        simp only [List.any_cons, hpk, Bool.false_or] at hmem
        exact hmem
      simp only [List.map_cons, hpk, Bool.false_eq_true, if_false,
        List.find?_cons, hpk]
      exact ih hmem2

/-- An in-place dict update of key `k` does not change lookups of other
keys. -/
lemma find_map_update_ne (d : List (String × String)) (k v k2 : String)
    (h : k2 ≠ k) :
    (d.map (fun p => if p.1 == k then (k, v) else p)).find?
        (fun p => p.1 == k2) = d.find? (fun p => p.1 == k2) := by
  induction d with
  | nil => rfl
  | cons p t ih =>
    cases hpk : (p.1 == k) with
    | true =>
      have hp1 : p.1 = k := by simpa using hpk
      have hk2 : (k == k2) = false := by
        simp only [beq_eq_false_iff_ne, ne_eq]
        exact fun hc => h hc.symm
      have hp2 : (p.1 == k2) = false := by
        rw [hp1]
        exact hk2
      simp only [List.map_cons, hpk, if_true, List.find?_cons, hk2, hp2]
      exact ih
    | false =>
      simp only [List.map_cons, hpk, Bool.false_eq_true, if_false,
        List.find?_cons]
      cases hq : (p.1 == k2) with
      | true => rfl
      | false => exact ih

/-- Lookup after inserting key `k` finds the inserted value. -/
lemma dictGet_insertDict_self (d : List (String × String)) (k v : String) :
    dictGet (insertDict d k v) k = some v := by
  unfold insertDict dictGet
  by_cases hmem : d.any (fun p => p.1 == k) = true
  · rw [if_pos hmem, find_map_update_self d k v hmem]
    rfl
  · rw [if_neg hmem, List.find?_append]
    have hnone : d.find? (fun p => p.1 == k) = none := by
      rw [List.find?_eq_none]
      intro x hx hcx
      exact hmem (List.any_eq_true.mpr ⟨x, hx, hcx⟩)
    rw [hnone]
    simp

/-- Lookup of a different key is unchanged by an insert. -/
lemma dictGet_insertDict_ne (d : List (String × String)) (k v k2 : String)
    (h : k2 ≠ k) :
    dictGet (insertDict d k v) k2 = dictGet d k2 := by
  unfold insertDict dictGet
  by_cases hmem : d.any (fun p => p.1 == k) = true
  · rw [if_pos hmem, find_map_update_ne d k v k2 h]
  · rw [if_neg hmem, List.find?_append]
    have hone : List.find? (fun p => p.1 == k2) [(k, v)] = none := by
      simp only [List.find?_cons, List.find?_nil]
      have : (k == k2) = false := by
        simp only [beq_eq_false_iff_ne, ne_eq]
        exact fun hc => h hc.symm
      rw [this]
    rw [hone, Option.or_none]

/-- The last element of a cons with a non-empty tail is the tail's
last element. -/
lemma getLast?_cons_of_ne_nil {α : Type} (a : α) (l : List α) (h : l ≠ []) :
    (a :: l).getLast? = l.getLast? := by
  cases l with
  | nil => exact absurd rfl h
  | cons b t => exact List.getLast?_cons_cons

/-- Folding the listing entries into the dict, started from any
accumulator: the lookup finds the identifier of the last entry whose
uppercased symbol matches, falling back to the accumulator. -/
lemma load_coin_mapping_get_aux (data : List CoinEntry)
    (d : List (String × String)) (k : String) :
    dictGet (data.foldl (fun d c => insertDict d c.symbol.toUpper c.id) d) k =
      (((data.filter (fun c => c.symbol.toUpper == k)).getLast?).map
          CoinEntry.id).or (dictGet d k) := by
  induction data generalizing d with
  | nil => simp
  | cons c rest ih =>
    simp only [List.foldl_cons, List.filter_cons]
    rw [ih]
    cases hck : (c.symbol.toUpper == k) with
    | true =>
      have hck' : c.symbol.toUpper = k := by simpa using hck
      cases hfl : (rest.filter (fun c => c.symbol.toUpper == k)).getLast? with
      | none =>
        have hnil : rest.filter (fun c => c.symbol.toUpper == k) = [] :=
          List.getLast?_eq_none_iff.mp hfl
        rw [hck']
        simp [hnil, dictGet_insertDict_self d k c.id]
      | some c2 =>
        have hne : rest.filter (fun c => c.symbol.toUpper == k) ≠ [] := by
          intro hc
          rw [hc] at hfl
          exact Option.noConfusion hfl
        simp [hfl, getLast?_cons_of_ne_nil c _ hne]
    | false =>
      have hck' : c.symbol.toUpper ≠ k := by simpa using hck
      rw [dictGet_insertDict_ne d c.symbol.toUpper c.id k
        (fun hc => hck' hc.symm)]
      simp

/-- C9: the symbol map built by `load_coin_mapping` maps a key to the
identifier of the last listing entry whose uppercased symbol equals the
key, and yields `none` (rather than an error) when no entry matches. -/
theorem load_coin_mapping_last_wins (data : List CoinEntry) (k : String) :
    dictGet (load_coin_mapping data) k =
      ((data.filter (fun c => c.symbol.toUpper == k)).getLast?).map
        CoinEntry.id := by
  rw [load_coin_mapping, load_coin_mapping_get_aux data [] k]
  rw [show dictGet [] k = none from rfl, Option.or_none]

/-- C10 counterexample: on a page run with a warm memoized cache, no
coin-listing network request is issued, refuting that the request
happens on every page run. -/
theorem listing_request_cached_counterexample :
    Event.listingRequest ∉ pageRun true true := by
  decide

/-- C10 (amended): the symbol-map load call runs at script top level on
every page run, first, before any pipeline activity and outside the
try/except-guarded region, even when the user never clicks predict; the
coin-listing network request is issued exactly on cold-cache runs (it
too outside the guarded region), not on every page run. -/
theorem listing_load_top_level (clicked : Bool) :
    pageRun false clicked
        = [Event.loadMappingCall, Event.listingRequest]
            ++ (if clicked then [Event.predictPipeline] else []) ∧
    (pageRun false clicked).head? = some Event.loadMappingCall ∧
    Event.listingRequest ∈ pageRun false clicked ∧
    Event.listingRequest ∉ guardedEvents ∧
    Event.loadMappingCall ∉ guardedEvents ∧
    pageRun false false = [Event.loadMappingCall, Event.listingRequest] ∧
    pageRun true clicked
        = [Event.loadMappingCall]
            ++ (if clicked then [Event.predictPipeline] else []) := by
  cases clicked <;> exact (by decide)

/-- Witness for C2 at the concrete two-point series 0, 3600 with the
zero model. -/
theorem forecast_24_hourly_witness :
    (futureData (fun _ => (0, 0, 0)) [0, 3600]).length = 24 ∧
    (futureData (fun _ => (0, 0, 0)) [0, 3600]).map FRow.ds
      = (List.range 24).map (fun i => lastDs [0, 3600] + 3600 * (i + 1)) ∧
    (∀ r ∈ futureData (fun _ => (0, 0, 0)) [0, 3600],
      lastDs [0, 3600] < r.ds) ∧
    (futureData (fun _ => (0, 0, 0)) [0, 3600]).Chain'
      (fun a b => b.ds = a.ds + 3600) :=
  forecast_24_hourly (fun _ => (0, 0, 0)) [0, 3600] (by decide)
    (by simp [List.chain'_cons])

/-- Witness for C4 at a concrete 10-row future sequence. -/
theorem horizon_partial_failure_witness :
    tableHours (List.replicate 10 ⟨0, 0, 0, 0⟩) 100
        = time_slots.filter (fun s =>
            decide (s ≤ (List.replicate 10 (⟨0, 0, 0, 0⟩ : FRow)).length)) ∧
    horizonWarnings (List.replicate 10 ⟨0, 0, 0, 0⟩) 100
        = time_slots.filter (fun s =>
            decide ((List.replicate 10 (⟨0, 0, 0, 0⟩ : FRow)).length < s)) ∧
    (tableHours (List.replicate 10 ⟨0, 0, 0, 0⟩) 100).Pairwise (· < ·) ∧
    (processHorizons (List.replicate 10 ⟨0, 0, 0, 0⟩) 100).length
        = time_slots.length :=
  horizon_partial_failure (List.replicate 10 ⟨0, 0, 0, 0⟩) 100 (by simp)

/-- Witness for C5 at a concrete run: empty primary result, empty coin
map, symbol ZZZ. -/
theorem coin_not_found_halts_witness :
    runPipeline (fun _ => (0, 0, 0)) [] [] "ZZZ" []
        = PipelineResult.coinNotFound ∧
    tablesOf (runPipeline (fun _ => (0, 0, 0)) [] [] "ZZZ" []) = [] ∧
    exportOf (runPipeline (fun _ => (0, 0, 0)) [] [] "ZZZ" []) = none :=
  coin_not_found_halts (fun _ => (0, 0, 0)) [] "ZZZ" [] rfl

/-- Witness for C7 at a concrete one-candle primary result. -/
theorem primary_nonempty_skips_fallback_witness :
    fetchStage [⟨⟨0, some 0⟩, 1, 2, 3, 4⟩] [] "BTC" []
        = FetchOutcome.fetched
            (normalizePrimary [⟨⟨0, some 0⟩, 1, 2, 3, 4⟩]) false ∧
    normalizePrimary [⟨⟨0, some 0⟩, 1, 2, 3, 4⟩]
        = [(⟨⟨0, some 0⟩, 1, 2, 3, 4⟩ : Candle)].map
            (fun c => (⟨c.dt.naive, none⟩, c.close)) ∧
    secondaryContacted (fetchStage [⟨⟨0, some 0⟩, 1, 2, 3, 4⟩] [] "BTC" [])
        = false ∧
    (∀ p cm s sp2, secondaryContacted (fetchStage p cm s sp2) = true →
      p = ([] : List Candle)) :=
  primary_nonempty_skips_fallback [⟨⟨0, some 0⟩, 1, 2, 3, 4⟩] [] "BTC" []
    (by simp)

/-- Witness for C8 at the concrete empty future sequence. -/
theorem export_roundtrip_witness :
    (convert_excel "BTC" (all_tables [] 0)).rows.length
        = (all_tables [] 0).length ∧
    (convert_excel "BTC" (all_tables [] 0)).header = tableHeaders ∧
    (∀ t ∈ all_tables [] 0, t.header = tableHeaders) ∧
    (convert_excel "BTC" (all_tables [] 0)).sheetName = "Forecasts" ∧
    (convert_excel "BTC" (all_tables [] 0)).fileName = "BTC" ++ "_forecast.xlsx" ∧
    (convert_excel "BTC" (all_tables [] 0)).mimeType
        = "application/vnd.openxmlformats-officedocument.spreadsheetml.sheet" ∧
    (convert_excel "BTC" (all_tables [] 0)).rows.map HorizonRow.hour
        = time_slots.filter (fun s => decide (s ≤ ([] : List FRow).length)) ∧
    (∀ m p cm s sp, (exportOf (runPipeline m p cm s sp)).isSome = true ↔
        tablesOf (runPipeline m p cm s sp) ≠ []) :=
  export_roundtrip [] 0 "BTC"

end AltcoinApp
